import Mathlib

/-!
Verification of the kamaki Pithos client core (src/kamaki/clients/pithos.py):
the content-addressed chunked upload path (`pithos_hash`, `put_block`,
`create_object`) and the range mutators (`append_object`, `overwrite_object`).

Machine model: bytes are natural numbers (a Python `str` character's code
point), files are byte lists read through an explicit position, the digest
algorithm (Python `hashlib`) is an abstract function parameter, and the HTTP
collaborator (the base client's `post`/`put`, which live outside this
repository) is a response-valued parameter; a call with an expected success
status raises a transport error on any other status, as the interface
contract states.
-/

namespace Pithos

/-- A byte of the source, as Python treats one `str` character. -/
abbrev Byte := Nat

/-- A fingerprint string, as returned by `hexdigest`. -/
abbrev Fp := String

/-- A digest algorithm family: Python `hashlib.new(name).update(b).hexdigest()`
abstracted as a function from the algorithm name and the byte content to the
hex digest string. -/
abbrev Digest := String → List Byte → Fp

/-- Python `block.rstrip('\x00')`: the block with every trailing NUL byte
removed. -/
def rstripNul (b : List Byte) : List Byte :=
  (List.dropWhile (fun x => x = 0) b.reverse).reverse

/-- `pithos_hash(block, blockhash)` from pithos.py line 43: digest of the
NUL-stripped block under the named algorithm. -/
def pithos_hash (digest : Digest) (blockhash : String) (block : List Byte) : Fp :=
  digest blockhash (rstripNul block)

/-- Python `1 + (size - 1) // blocksize` with floor division on integers,
truncated to a natural number (it is never negative for `size ≥ 0`,
`blocksize > 0`). -/
def nblocksOf (size blocksize : Nat) : Nat :=
  (1 + Int.fdiv ((size : Int) - 1) (blocksize : Int)).toNat

/-- One chunk produced by the hashing loop of `create_object` (or one window
of `append_object`): its offset, the byte count actually read, and the bytes. -/
structure Chunk where
  offset : Nat
  len : Nat
  data : List Byte
  deriving DecidableEq, Repr

/-- The sequential read loop shared by `create_object` (lines 91-99) and
`append_object` (lines 285-289): `fuel` iterations of
`block = f.read(min(blocksize, size - offset)); offset += len(block)`
against a file holding `fdata`, starting at read position `offset`
(sequential reads make the file position equal the running offset). -/
def readLoop (fdata : List Byte) (size blocksize : Nat) : Nat → Nat → List Chunk
  | 0, _ => []
  | k + 1, offset =>
    let block := (fdata.drop offset).take (min blocksize (size - offset))
    ⟨offset, block.length, block⟩ :: readLoop fdata size blocksize k (offset + block.length)

/-- The chunk sequence of `create_object`'s hashing pass: `nblocks` reads
starting at offset 0. -/
def chunksOf (fdata : List Byte) (size blocksize : Nat) : List Chunk :=
  readLoop fdata size blocksize (nblocksOf size blocksize) 0

/-- The ordered fingerprint list `hashes` built by the hashing pass. -/
def hashesOf (digest : Digest) (blockhash : String) (fdata : List Byte)
    (size blocksize : Nat) : List Fp :=
  (chunksOf fdata size blocksize).map (fun c => pithos_hash digest blockhash c.data)

/-- Sum of the chunk byte counts: the final value of `offset` after the loop,
i.e. the total number of bytes actually read. -/
def sumLens (cs : List Chunk) : Nat :=
  cs.foldr (fun c acc => c.len + acc) 0

/-- Boolean contiguity check: each chunk starts where the previous one ended,
the first at the given offset. -/
def contiguousFromB : Nat → List Chunk → Bool
  | _, [] => true
  | o, c :: cs => decide (c.offset = o) && contiguousFromB (o + c.len) cs

theorem rstripNul_all_zero (b : List Byte) (h : ∀ x ∈ b, x = 0) :
    rstripNul b = [] := by
  unfold rstripNul
  have : List.dropWhile (fun x => x = 0) b.reverse = [] := by
    apply List.dropWhile_eq_nil_iff.mpr
    intro x hx
    simp only [decide_eq_true_eq]
    exact h x (List.mem_reverse.mp hx)
  rw [this]
  rfl

theorem fdiv_neg_one_succ (b : Nat) :
    Int.fdiv (-1) ((b + 1 : Nat) : Int) = Int.negSucc (0 / (b + 1)) := rfl

theorem fdiv_cast_cast (m n : Nat) :
    Int.fdiv ((m : Nat) : Int) ((n : Nat) : Int) = ((m / n : Nat) : Int) := by
  cases m with
  | zero => rw [Nat.zero_div]; rfl
  | succ k => rfl

theorem nblocksOf_zero (B : Nat) (hB : 0 < B) : nblocksOf 0 B = 0 := by
  obtain ⟨b, rfl⟩ : ∃ b, B = b + 1 := ⟨B - 1, by omega⟩
  unfold nblocksOf
  have h1 : (((0 : Nat) : Int) - 1) = -1 := by norm_num
  rw [h1, fdiv_neg_one_succ, Nat.zero_div]
  rfl

theorem nblocksOf_eq_ceil (size B : Nat) (hB : 0 < B) :
    nblocksOf size B = (size + B - 1) / B := by
  obtain ⟨b, rfl⟩ : ∃ b, B = b + 1 := ⟨B - 1, by omega⟩
  cases size with
  | zero =>
      rw [nblocksOf_zero _ (by omega)]
      have h4 : 0 + (b + 1) - 1 = b := by omega
      rw [h4, Nat.div_eq_of_lt (by omega)]
  | succ s =>
      unfold nblocksOf
      have h1 : ((s + 1 : Nat) : Int) - 1 = ((s : Nat) : Int) := by push_cast; ring
      rw [h1, fdiv_cast_cast]
      obtain ⟨q, hq⟩ : ∃ q, s / (b + 1) = q := ⟨_, rfl⟩
      rw [hq]
      have h3 : (1 + (q : Int)).toNat = q + 1 := by omega
      rw [h3]
      have h4 : s + 1 + (b + 1) - 1 = s + (b + 1) := by omega
      rw [h4, Nat.add_div_right _ (by omega), hq]

/-- The chunk that a read at position `p` produces when the file holds at
least `size` bytes: `min B (size - p)` bytes starting at `p`. -/
def chunkAt (fdata : List Byte) (size B p : Nat) : Chunk :=
  ⟨p, min B (size - p), (fdata.drop p).take (min B (size - p))⟩

theorem readLoop_length (fdata : List Byte) (size B : Nat) :
    ∀ (k o : Nat), (readLoop fdata size B k o).length = k := by
  intro k
  induction k with
  | zero => intro o; rfl
  | succ n ih => intro o; simp [readLoop, ih]

theorem nblocksOf_mul_bounds (size B : Nat) (hB : 0 < B) :
    size ≤ nblocksOf size B * B ∧ nblocksOf size B * B ≤ size + B := by
  cases size with
  | zero => rw [nblocksOf_zero B hB]; omega
  | succ s =>
      have hnb : nblocksOf (s + 1) B = s / B + 1 := by
        rw [nblocksOf_eq_ceil _ B hB]
        have h4 : s + 1 + B - 1 = s + B := by omega
        rw [h4, Nat.add_div_right _ hB]
      rw [hnb]
      have h1 := Nat.div_add_mod s B
      have h2 := Nat.mod_lt s hB
      obtain ⟨q, hq⟩ : ∃ q, s / B = q := ⟨_, rfl⟩
      obtain ⟨r, hr⟩ : ∃ r, s % B = r := ⟨_, rfl⟩
      rw [hq] at h1 ⊢
      rw [hr] at h1 h2
      constructor
      · nlinarith
      · nlinarith

theorem len_take_drop (fdata : List Byte) (o r : Nat) :
    ((fdata.drop o).take r).length = min r (fdata.length - o) := by
  simp [List.length_take, List.length_drop]

theorem readLoop_eq_map (fdata : List Byte) (size B : Nat)
    (hL : size ≤ fdata.length) :
    ∀ (k o : Nat), o ≤ size → o + k * B ≤ size + B →
    readLoop fdata size B k o =
      (List.range k).map (fun i => chunkAt fdata size B (o + i * B)) := by
  intro k
  induction k with
  | zero => intro o _ _; rfl
  | succ n ih =>
      intro o ho hk
      have hlen : ((fdata.drop o).take (min B (size - o))).length = min B (size - o) := by
        rw [len_take_drop]; omega
      rw [readLoop, List.range_succ_eq_map, List.map_cons, List.map_map]
      congr 1
      · show (⟨o, _, _⟩ : Chunk) = chunkAt fdata size B (o + 0 * B)
        rw [chunkAt]
        have h0 : o + 0 * B = o := by omega
        rw [h0, hlen]
      · rw [hlen]
        cases n with
        | zero => rfl
        | succ m =>
            have h7 : o + (m + 2) * B ≤ size + B := hk
            have h8 : (m + 2) * B = m * B + B + B := by ring
            rw [h8] at h7
            obtain ⟨t, ht⟩ : ∃ t, m * B = t := ⟨_, rfl⟩
            rw [ht] at h7
            have h6 : o + B ≤ size := by omega
            have hBle : min B (size - o) = B := by omega
            rw [hBle]
            have h9 : o + B + (m + 1) * B ≤ size + B := by
              have h10 : (m + 1) * B = t + B := by rw [← ht]; ring
              rw [h10]; omega
            rw [ih (o + B) h6 h9]
            apply List.map_congr_left
            intro i _
            show chunkAt fdata size B (o + B + i * B) = chunkAt fdata size B (o + (i + 1) * B)
            have harg : o + B + i * B = o + (i + 1) * B := by ring
            rw [harg]

theorem sumLens_readLoop (fdata : List Byte) (size B : Nat)
    (hL : size ≤ fdata.length) :
    ∀ (k o : Nat), o ≤ size → size - o ≤ k * B →
    sumLens (readLoop fdata size B k o) = size - o := by
  intro k
  induction k with
  | zero => intro o _ h; simp [readLoop, sumLens]; omega
  | succ n ih =>
      intro o ho hk
      have hlen : ((fdata.drop o).take (min B (size - o))).length = min B (size - o) := by
        rw [len_take_drop]; omega
      rw [readLoop]
      show ((fdata.drop o).take (min B (size - o))).length +
        sumLens (readLoop fdata size B n (o + ((fdata.drop o).take (min B (size - o))).length)) =
        size - o
      rw [hlen]
      have hexp : (n + 1) * B = n * B + B := by ring
      rw [hexp] at hk
      obtain ⟨t, ht⟩ : ∃ t, n * B = t := ⟨_, rfl⟩
      rw [ht] at hk
      rw [ih (o + min B (size - o)) (by omega) (by rw [ht]; omega)]
      omega

theorem contiguousFromB_readLoop (fdata : List Byte) (size B : Nat) :
    ∀ (k o : Nat), contiguousFromB o (readLoop fdata size B k o) = true := by
  intro k
  induction k with
  | zero => intro o; rfl
  | succ n ih =>
      intro o
      simp only [readLoop, contiguousFromB, Bool.and_eq_true, decide_eq_true_eq]
      exact ⟨trivial, ih _⟩

theorem chunksOf_eq_map (fdata : List Byte) (size B : Nat) (hB : 0 < B)
    (hL : size ≤ fdata.length) :
    chunksOf fdata size B =
      (List.range (nblocksOf size B)).map (fun i => chunkAt fdata size B (0 + i * B)) :=
  readLoop_eq_map fdata size B hL (nblocksOf size B) 0 (Nat.zero_le _)
    (by have := (nblocksOf_mul_bounds size B hB).2; omega)

theorem chunksOf_length (fdata : List Byte) (size B : Nat) :
    (chunksOf fdata size B).length = nblocksOf size B :=
  readLoop_length fdata size B (nblocksOf size B) 0

/-- An HTTP response as the client sees it: `status_code` and body text. -/
structure Resp where
  status : Nat
  text : String
  deriving DecidableEq

/-- The errors the upload path can raise: the `assert offset == size`
consistency failure (line 101), a non-success status from the HTTP
collaborator, the `assert r.text.strip() == hash` fingerprint mismatch
(line 62), and a `KeyError` from `map[hash]` on an unknown fingerprint. -/
inductive Err where
  | sizeMismatch
  | transport (status : Nat)
  | hashMismatch
  | keyError
  deriving DecidableEq

/-- The observable actions of `create_object`, in order: a hash-progress
notification (`hash_gen.next()`), the hash-map PUT, an upload-progress
notification (`upload_gen.next()`), a block POST (`put_block`), and the
final hash-map PUT. -/
inductive Event where
  | hashNotify
  | submitHashmap (bytes : Nat) (hashes : List Fp)
  | uploadNotify
  | putBlockCall (data : List Byte) (hash : Fp)
  | finalSubmit (bytes : Nat) (hashes : List Fp)
  deriving DecidableEq

/-- Python's default `str.strip()` whitespace set: space, tab, newline,
carriage return, vertical tab, form feed. -/
def isPySpace (c : Char) : Bool :=
  c == ' ' || c == '\t' || c == '\n' || c == '\r' || c == '\x0b' || c == '\x0c'

/-- Python `str.strip()` on the response body: leading and trailing
whitespace removed. -/
def strip (s : String) : String :=
  ⟨((s.data.dropWhile isPySpace).reverse.dropWhile isPySpace).reverse⟩

/-- `put_block(data, hash)` from pithos.py lines 57-62, with the HTTP
collaborator as the parameter `blockResp`. Modelled from the spec: the base
client's `post` (class `StorageClient`'s parent, outside this repository)
raises a transport error whenever the response status is not the expected
success code 202 (spec sections 6-7); the local fingerprint check
`assert r.text.strip() == hash` is line 62 of the source. -/
def put_block (blockResp : List Byte → Fp → Resp) (data : List Byte) (hash : Fp) :
    Option Err :=
  let r := blockResp data hash
  if r.status ≠ 202 then some (Err.transport r.status)
  else if strip r.text ≠ hash then some Err.hashMismatch
  else none

/-- Lookup in the Python dict built by repeated `map[hash] = (offset, bytes)`
assignments: the value of the LAST assignment for the key wins. -/
def dictLookup (assocs : List (Fp × Nat × Nat)) (h : Fp) : Option (Nat × Nat) :=
  (assocs.reverse.find? (fun p => p.1 == h)).map (fun p => p.2)

/-- The association list behind the dict `map` of `create_object` line 96:
one `(fingerprint, (offset, bytes))` entry per chunk, in chunk order. -/
def assocsOf (digest : Digest) (bh : String) (fdata : List Byte)
    (size B : Nat) : List (Fp × Nat × Nat) :=
  (chunksOf fdata size B).map (fun c => (pithos_hash digest bh c.data, c.offset, c.len))

/-- The missing-block loop of `create_object` lines 117-123: for each missing
fingerprint, `offset, bytes = map[hash]; f.seek(offset); data = f.read(bytes);
self.put_block(data, hash)`, then an upload-progress notification. Returns
the events of the loop and the first error, if any. -/
def uploadLoop (blockResp : List Byte → Fp → Resp) (fdata : List Byte)
    (assocs : List (Fp × Nat × Nat)) (ucb : Bool) :
    List Fp → List Event × Option Err
  | [] => ([], none)
  | h :: rest =>
    match dictLookup assocs h with
    | none => ([], some Err.keyError)
    | some (o, l) =>
      let data := (fdata.drop o).take l
      match put_block blockResp data h with
      | some e => ([Event.putBlockCall data h], some e)
      | none =>
        let r := uploadLoop blockResp fdata assocs ucb rest
        (Event.putBlockCall data h ::
          (if ucb then Event.uploadNotify :: r.1 else r.1), r.2)

/-- `create_object` from pithos.py lines 64-125: hash every chunk (notifying
the hash sink per block when supplied), check `assert offset == size`, PUT
the hash map (success 201 or 409; 201 ends the operation), upload each
missing block through `put_block` (notifying the upload sink per block when
supplied), and PUT the hash map again with expected status 201. The store is
modelled by `firstStatus`/`missing` (status and json body of the first PUT),
`blockResp` (the per-block POST), and `finalStatus` (the final PUT); the
result is the list of observable events plus the raised error, if any. -/
def create_object (digest : Digest) (bh : String) (B : Nat) (fdata : List Byte)
    (size : Nat) (hcb ucb : Bool) (firstStatus : Nat) (missing : List Fp)
    (blockResp : List Byte → Fp → Resp) (finalStatus : Nat) :
    List Event × Option Err :=
  let chunks := chunksOf fdata size B
  let hashes := chunks.map (fun c => pithos_hash digest bh c.data)
  let assocs := chunks.map (fun c => (pithos_hash digest bh c.data, c.offset, c.len))
  let hashEvents : List Event := if hcb then chunks.map (fun _ => Event.hashNotify) else []
  if sumLens chunks ≠ size then (hashEvents, some Err.sizeMismatch)
  else if firstStatus = 201 then
    (hashEvents ++ [Event.submitHashmap size hashes], none)
  else if firstStatus ≠ 409 then
    (hashEvents ++ [Event.submitHashmap size hashes], some (Err.transport firstStatus))
  else
    let r := uploadLoop blockResp fdata assocs ucb missing
    match r.2 with
    | some e => (hashEvents ++ [Event.submitHashmap size hashes] ++ r.1, some e)
    | none =>
      let evs := hashEvents ++ [Event.submitHashmap size hashes] ++ r.1 ++
        [Event.finalSubmit size hashes]
      if finalStatus = 201 then (evs, none)
      else (evs, some (Err.transport finalStatus))

/-- Discriminator: is this event a block POST? -/
def isPutBlockEv : Event → Bool
  | .putBlockCall _ _ => true
  | _ => false

/-- Discriminator: is this event the first hash-map submission? -/
def isSubmitEv : Event → Bool
  | .submitHashmap _ _ => true
  | _ => false

/-- Discriminator: is this event the final hash-map submission? -/
def isFinalEv : Event → Bool
  | .finalSubmit _ _ => true
  | _ => false

/-- Discriminator: is this event a progress notification (of either sink)? -/
def isNotifyEv : Event → Bool
  | .hashNotify => true
  | .uploadNotify => true
  | _ => false

/-- Discriminator: is this event a hash-progress notification? -/
def isHashNotifyEv : Event → Bool
  | .hashNotify => true
  | _ => false

/-- The fingerprints of the blocks POSTed, in transmission order. -/
def putHashes (evs : List Event) : List Fp :=
  evs.filterMap (fun e => match e with | .putBlockCall _ h => some h | _ => none)

/-- The event trace with all progress notifications removed. -/
def dropNotifies (evs : List Event) : List Event :=
  evs.filter (fun e => ! isNotifyEv e)

end Pithos

namespace Pithos

/-- C1: for declared size ≥ 0 and block size > 0 (source holding the declared
bytes), the hashing loop of `create_object` produces exactly
ceil(size / blocksize) chunks; their offsets start at 0, are contiguous and
equal `i * blocksize`, every length is at most `blocksize` and every
non-final length equals `blocksize`, the lengths sum to `size`; and
`size = 0` gives no chunks and an empty fingerprint list. -/
theorem create_object_chunking (digest : Digest) (bh : String) (fdata : List Byte)
    (size B : Nat) (hB : 0 < B) (hL : size ≤ fdata.length) :
    (chunksOf fdata size B).length = (size + B - 1) / B ∧
    contiguousFromB 0 (chunksOf fdata size B) = true ∧
    (∀ i, ∀ h : i < (chunksOf fdata size B).length,
        ((chunksOf fdata size B).get ⟨i, h⟩).offset = i * B) ∧
    (∀ i, ∀ h : i < (chunksOf fdata size B).length,
        i + 1 < (chunksOf fdata size B).length →
        ((chunksOf fdata size B).get ⟨i, h⟩).len = B) ∧
    (∀ i, ∀ h : i < (chunksOf fdata size B).length,
        ((chunksOf fdata size B).get ⟨i, h⟩).len ≤ B) ∧
    sumLens (chunksOf fdata size B) = size ∧
    (size = 0 → chunksOf fdata size B = [] ∧ hashesOf digest bh fdata size B = []) := by
  have hmap := chunksOf_eq_map fdata size B hB hL
  have hlen := chunksOf_length fdata size B
  have hbounds := nblocksOf_mul_bounds size B hB
  refine ⟨?_, ?_, ?_, ?_, ?_, ?_, ?_⟩
  · rw [hlen, nblocksOf_eq_ceil size B hB]
  · exact contiguousFromB_readLoop fdata size B _ 0
  · intro i h
    have h2 : i < nblocksOf size B := by rw [← hlen]; exact h
    simp only [hmap, List.get_eq_getElem, List.getElem_map, List.getElem_range, chunkAt]
    omega
  · intro i h hnext
    have h2 : i + 2 ≤ nblocksOf size B := by rw [← hlen]; omega
    have h3 : (i + 2) * B ≤ nblocksOf size B * B := Nat.mul_le_mul_right B h2
    have h4 : (i + 2) * B = i * B + B + B := by ring
    obtain ⟨t, ht⟩ : ∃ t, i * B = t := ⟨_, rfl⟩
    rw [h4, ht] at h3
    obtain ⟨u, hu⟩ : ∃ u, nblocksOf size B * B = u := ⟨_, rfl⟩
    rw [hu] at h3 hbounds
    simp only [hmap, List.get_eq_getElem, List.getElem_map, List.getElem_range, chunkAt]
    rw [ht]
    omega
  · intro i h
    simp only [hmap, List.get_eq_getElem, List.getElem_map, List.getElem_range, chunkAt]
    omega
  · exact sumLens_readLoop fdata size B hL (nblocksOf size B) 0 (Nat.zero_le _) (by omega)
  · intro h0
    have hz : nblocksOf size B = 0 := by rw [h0]; exact nblocksOf_zero B hB
    have hc : chunksOf fdata size B = [] := by
      rw [h0] at hz ⊢
      rw [chunksOf, hz]
      rfl
    refine ⟨hc, ?_⟩
    rw [h0] at hc
    rw [hashesOf, h0, hc]
    rfl

/-- Witness for C1 at digest (fun _ _ => ""), fdata [1,2,3,4,5], size 5,
blocksize 2. -/
theorem create_object_chunking_witness :
    0 < 2 ∧ 5 ≤ ([1, 2, 3, 4, 5] : List Byte).length ∧
    ((chunksOf [1, 2, 3, 4, 5] 5 2).length = (5 + 2 - 1) / 2 ∧
    contiguousFromB 0 (chunksOf [1, 2, 3, 4, 5] 5 2) = true ∧
    (∀ i, ∀ h : i < (chunksOf [1, 2, 3, 4, 5] 5 2).length,
        ((chunksOf [1, 2, 3, 4, 5] 5 2).get ⟨i, h⟩).offset = i * 2) ∧
    (∀ i, ∀ h : i < (chunksOf [1, 2, 3, 4, 5] 5 2).length,
        i + 1 < (chunksOf [1, 2, 3, 4, 5] 5 2).length →
        ((chunksOf [1, 2, 3, 4, 5] 5 2).get ⟨i, h⟩).len = 2) ∧
    (∀ i, ∀ h : i < (chunksOf [1, 2, 3, 4, 5] 5 2).length,
        ((chunksOf [1, 2, 3, 4, 5] 5 2).get ⟨i, h⟩).len ≤ 2) ∧
    sumLens (chunksOf [1, 2, 3, 4, 5] 5 2) = 5 ∧
    (5 = 0 → chunksOf [1, 2, 3, 4, 5] 5 2 = [] ∧
      hashesOf (fun _ _ => "") "sha256" [1, 2, 3, 4, 5] 5 2 = [])) :=
  ⟨by decide, by decide,
    create_object_chunking (fun _ _ => "") "sha256" [1, 2, 3, 4, 5] 5 2
      (by decide) (by decide)⟩

/-- C4: `pithos_hash` digests the block with all trailing NUL bytes removed;
a block of only zero bytes therefore hashes to the digest of the empty
string, and two blocks equal after trailing-NUL stripping always get the
same fingerprint. -/
theorem pithos_hash_spec (digest : Digest) (alg : String) (b b1 b2 : List Byte) :
    pithos_hash digest alg b = digest alg (rstripNul b) ∧
    ((∀ x ∈ b, x = 0) → pithos_hash digest alg b = digest alg []) ∧
    (rstripNul b1 = rstripNul b2 →
      pithos_hash digest alg b1 = pithos_hash digest alg b2) := by
  refine ⟨rfl, ?_, ?_⟩
  · intro h
    rw [pithos_hash, rstripNul_all_zero b h]
  · intro h
    rw [pithos_hash, pithos_hash, h]

/-- Witness for C4 at the digest (fun _ b => toString b.length), an all-zero
block [0,0,0], and the stripped-equal pair [7,0] and [7]. -/
theorem pithos_hash_spec_witness :
    (∀ x ∈ ([0, 0, 0] : List Byte), x = 0) ∧
    rstripNul [7, 0] = rstripNul [7] ∧
    (pithos_hash (fun _ b => toString b.length) "md5" [0, 0, 0] =
        (fun (_ : String) (b : List Byte) => toString b.length) "md5" [] ∧
      pithos_hash (fun _ b => toString b.length) "md5" [7, 0] =
        pithos_hash (fun _ b => toString b.length) "md5" [7]) :=
  ⟨by decide, by decide,
    (pithos_hash_spec (fun _ b => toString b.length) "md5" [0, 0, 0] [7, 0] [7]).2.1
      (by decide),
    (pithos_hash_spec (fun _ b => toString b.length) "md5" [0, 0, 0] [7, 0] [7]).2.2
      (by decide)⟩

/-- C6: when the total number of bytes actually read during the hashing pass
differs from the declared size, `create_object` raises the consistency
error `assert offset == size` and the trace holds no hash-map submission
and no block transmission, only hash-progress notifications. -/
theorem create_object_size_guard (digest : Digest) (bh : String) (B : Nat)
    (fdata : List Byte) (size : Nat) (hcb ucb : Bool) (fs : Nat)
    (missing : List Fp) (blockResp : List Byte → Fp → Resp) (fin : Nat)
    (h : sumLens (chunksOf fdata size B) ≠ size) :
    (create_object digest bh B fdata size hcb ucb fs missing blockResp fin).2 =
      some Err.sizeMismatch ∧
    ∀ e ∈ (create_object digest bh B fdata size hcb ucb fs missing blockResp fin).1,
      e = Event.hashNotify := by
  unfold create_object
  rw [if_pos h]
  refine ⟨rfl, ?_⟩
  intro e he
  cases hcb with
  | true =>
      simp only [if_pos] at he
      obtain ⟨c, _, rfl⟩ := List.mem_map.mp he
      rfl
  | false =>
      simp at he

/-- Witness for C6: a 2-byte source declared as size 5 with blocksize 2. -/
theorem create_object_size_guard_witness :
    sumLens (chunksOf [1, 2] 5 2) ≠ 5 ∧
    ((create_object (fun _ _ => "") "h" 2 [1, 2] 5 true true 409 []
        (fun _ _ => ⟨202, ""⟩) 201).2 = some Err.sizeMismatch ∧
      ∀ e ∈ (create_object (fun _ _ => "") "h" 2 [1, 2] 5 true true 409 []
        (fun _ _ => ⟨202, ""⟩) 201).1, e = Event.hashNotify) :=
  ⟨by decide,
    create_object_size_guard (fun _ _ => "") "h" 2 [1, 2] 5 true true 409 []
      (fun _ _ => ⟨202, ""⟩) 201 (by decide)⟩

/-- C8: when the first hash-map submission answers 201, `create_object`
ends successfully at once: exactly one hash-map submission, zero block
transmissions, no final submission, no error. -/
theorem create_object_stored_immediately (digest : Digest) (bh : String) (B : Nat)
    (fdata : List Byte) (size : Nat) (hcb ucb : Bool)
    (missing : List Fp) (blockResp : List Byte → Fp → Resp) (fin : Nat)
    (hB : 0 < B) (hL : size ≤ fdata.length) :
    (create_object digest bh B fdata size hcb ucb 201 missing blockResp fin).2 = none ∧
    ((create_object digest bh B fdata size hcb ucb 201 missing blockResp fin).1.countP
      (fun e => isSubmitEv e)) = 1 ∧
    ((create_object digest bh B fdata size hcb ucb 201 missing blockResp fin).1.countP
      (fun e => isPutBlockEv e)) = 0 ∧
    ((create_object digest bh B fdata size hcb ucb 201 missing blockResp fin).1.countP
      (fun e => isFinalEv e)) = 0 := by
  have hsum : sumLens (chunksOf fdata size B) = size :=
    sumLens_readLoop fdata size B hL (nblocksOf size B) 0 (Nat.zero_le _)
      (by have := (nblocksOf_mul_bounds size B hB).1; omega)
  unfold create_object
  rw [if_neg (by rw [hsum]; exact fun hx => hx rfl)]
  rw [if_pos rfl]
  refine ⟨rfl, ?_, ?_, ?_⟩ <;>
    cases hcb <;>
      simp [List.countP_append, List.countP_map, List.countP_cons,
        isSubmitEv, isPutBlockEv, isFinalEv, Function.comp]

/-- Witness for C8: blocksize 2, source [1,2,3] of size 3, first status 201. -/
theorem create_object_stored_immediately_witness :
    0 < 2 ∧ 3 ≤ ([1, 2, 3] : List Byte).length ∧
    ((create_object (fun _ _ => "") "h" 2 [1, 2, 3] 3 true true 201 ["a"]
        (fun _ _ => ⟨202, ""⟩) 201).2 = none ∧
      ((create_object (fun _ _ => "") "h" 2 [1, 2, 3] 3 true true 201 ["a"]
        (fun _ _ => ⟨202, ""⟩) 201).1.countP (fun e => isSubmitEv e)) = 1 ∧
      ((create_object (fun _ _ => "") "h" 2 [1, 2, 3] 3 true true 201 ["a"]
        (fun _ _ => ⟨202, ""⟩) 201).1.countP (fun e => isPutBlockEv e)) = 0 ∧
      ((create_object (fun _ _ => "") "h" 2 [1, 2, 3] 3 true true 201 ["a"]
        (fun _ _ => ⟨202, ""⟩) 201).1.countP (fun e => isFinalEv e)) = 0) :=
  ⟨by decide, by decide,
    create_object_stored_immediately (fun _ _ => "") "h" 2 [1, 2, 3] 3 true true
      ["a"] (fun _ _ => ⟨202, ""⟩) 201 (by decide) (by decide)⟩

theorem putHashes_append (a b : List Event) :
    putHashes (a ++ b) = putHashes a ++ putHashes b := by
  unfold putHashes
  rw [List.filterMap_append]

theorem putHashes_hashEvents (cs : List Chunk) :
    putHashes (cs.map fun _ => Event.hashNotify) = [] := by
  induction cs with
  | nil => rfl
  | cons c cs ih =>
      simp only [List.map_cons, putHashes, List.filterMap_cons] at ih ⊢
      exact ih

theorem uploadLoop_ok (blockResp : List Byte → Fp → Resp) (fdata : List Byte)
    (assocs : List (Fp × Nat × Nat)) (ucb : Bool) (missing : List Fp)
    (hfind : ∀ h ∈ missing, (dictLookup assocs h).isSome = true)
    (hresp : ∀ h ∈ missing, ∀ d,
      (blockResp d h).status = 202 ∧ strip (blockResp d h).text = h) :
    (uploadLoop blockResp fdata assocs ucb missing).2 = none ∧
    putHashes (uploadLoop blockResp fdata assocs ucb missing).1 = missing := by
  induction missing with
  | nil => exact ⟨rfl, rfl⟩
  | cons h rest ih =>
      have hf := hfind h (List.mem_cons_self h rest)
      obtain ⟨⟨o, l⟩, ho⟩ := Option.isSome_iff_exists.mp hf
      have h1 := (hresp h (List.mem_cons_self h rest) ((fdata.drop o).take l)).1
      have h2 := (hresp h (List.mem_cons_self h rest) ((fdata.drop o).take l)).2
      have hput : put_block blockResp ((fdata.drop o).take l) h = none := by
        unfold put_block
        simp only [h1, h2]
        simp
      obtain ⟨ih1, ih2⟩ := ih (fun x hx => hfind x (List.mem_cons_of_mem _ hx))
        (fun x hx => hresp x (List.mem_cons_of_mem _ hx))
      constructor
      · simp only [uploadLoop, ho, hput]
        exact ih1
      · simp only [uploadLoop, ho, hput]
        cases ucb <;> simp [putHashes, List.filterMap_cons] <;>
          · rw [← putHashes] at *
            exact ih2

/-- C5: with the first submission answering 409 and a duplicate-free missing
set whose fingerprints all appear in the built map, `create_object`
transmits exactly one block per fingerprint of the missing set — the POSTed
fingerprints are exactly the missing list, so each distinct missing
fingerprint is uploaded exactly once even when it labels several block
positions. -/
theorem create_object_uploads_missing_once (digest : Digest) (bh : String)
    (B : Nat) (fdata : List Byte) (size : Nat) (hcb ucb : Bool)
    (missing : List Fp) (blockResp : List Byte → Fp → Resp) (fin : Nat)
    (hB : 0 < B) (hL : size ≤ fdata.length)
    (hnodup : missing.Nodup)
    (hfind : ∀ h ∈ missing,
      (dictLookup (assocsOf digest bh fdata size B) h).isSome = true)
    (hresp : ∀ h ∈ missing, ∀ d,
      (blockResp d h).status = 202 ∧ strip (blockResp d h).text = h) :
    putHashes (create_object digest bh B fdata size hcb ucb 409 missing
      blockResp fin).1 = missing ∧
    ∀ fp ∈ missing,
      (putHashes (create_object digest bh B fdata size hcb ucb 409 missing
        blockResp fin).1).count fp = 1 := by
  have hsum : sumLens (chunksOf fdata size B) = size :=
    sumLens_readLoop fdata size B hL (nblocksOf size B) 0 (Nat.zero_le _)
      (by have := (nblocksOf_mul_bounds size B hB).1; omega)
  obtain ⟨hu1, hu2⟩ := uploadLoop_ok blockResp fdata
    (assocsOf digest bh fdata size B) ucb missing hfind hresp
  have hmain : putHashes (create_object digest bh B fdata size hcb ucb 409 missing
      blockResp fin).1 = missing := by
    unfold create_object
    rw [if_neg (by rw [hsum]; exact fun hx => hx rfl)]
    rw [if_neg (by decide)]
    rw [if_neg (by simp)]
    rw [assocsOf] at hu1 hu2
    simp only [hu1]
    by_cases hf : fin = 201 <;>
      simp only [hf, if_pos, if_neg, if_true, if_false, reduceIte] <;>
        · rw [putHashes_append, putHashes_append, putHashes_append]
          rw [hu2]
          cases hcb <;>
            simp [putHashes, putHashes_hashEvents]
  refine ⟨hmain, ?_⟩
  intro fp hfp
  rw [hmain]
  exact List.count_eq_one_of_mem hnodup hfp

/-- Witness for C5: source [1,2,3,4] with blocksize 2 gives two blocks with
the same fingerprint; the missing set holds that fingerprint once and it is
uploaded exactly once. -/
theorem create_object_uploads_missing_once_witness :
    0 < 2 ∧ 4 ≤ ([1, 2, 3, 4] : List Byte).length ∧
    (["2"] : List Fp).Nodup ∧
    (putHashes (create_object (fun _ b => toString b.length) "h" 2 [1, 2, 3, 4] 4
        true true 409 ["2"] (fun _ h => ⟨202, h⟩) 201).1 = ["2"] ∧
      ∀ fp ∈ (["2"] : List Fp),
        (putHashes (create_object (fun _ b => toString b.length) "h" 2 [1, 2, 3, 4] 4
          true true 409 ["2"] (fun _ h => ⟨202, h⟩) 201).1).count fp = 1) :=
  ⟨by decide, by decide, by decide,
    create_object_uploads_missing_once (fun _ b => toString b.length) "h" 2
      [1, 2, 3, 4] 4 true true ["2"] (fun _ h => ⟨202, h⟩) 201
      (by decide) (by decide) (by decide)
      (by decide)
      (by
        intro fp hfp d
        have hfp2 : fp = "2" := by simpa using hfp
        subst hfp2
        exact ⟨rfl, show strip "2" = "2" by decide⟩)⟩

/-- C7: `put_block` succeeds exactly when the HTTP collaborator answers the
expected 202 status and the stripped response body equals the declared
fingerprint; any other status or a stripped-body mismatch raises. -/
theorem put_block_fails_iff (blockResp : List Byte → Fp → Resp)
    (data : List Byte) (hash : Fp) :
    (put_block blockResp data hash = none ↔
      ((blockResp data hash).status = 202 ∧ strip (blockResp data hash).text = hash)) ∧
    (put_block blockResp data hash ≠ none ↔
      ((blockResp data hash).status ≠ 202 ∨ strip (blockResp data hash).text ≠ hash)) := by
  have hval : put_block blockResp data hash =
      (if (blockResp data hash).status ≠ 202 then
        some (Err.transport (blockResp data hash).status)
      else if strip (blockResp data hash).text ≠ hash then some Err.hashMismatch
      else none) := rfl
  rw [hval]
  split_ifs with h1 h2 <;> simp_all

theorem dropNotifies_append (a b : List Event) :
    dropNotifies (a ++ b) = dropNotifies a ++ dropNotifies b := by
  unfold dropNotifies
  rw [List.filter_append]

theorem dropNotifies_hashEvents (cs : List Chunk) :
    dropNotifies (cs.map fun _ => Event.hashNotify) = [] := by
  induction cs with
  | nil => rfl
  | cons c t ih =>
      simp only [List.map_cons, dropNotifies, List.filter_cons] at ih ⊢
      simp only [isNotifyEv] at ih ⊢
      exact ih

theorem uploadLoop_ucb_frame (blockResp : List Byte → Fp → Resp)
    (fdata : List Byte) (assocs : List (Fp × Nat × Nat)) (missing : List Fp)
    (u u' : Bool) :
    dropNotifies (uploadLoop blockResp fdata assocs u missing).1 =
      dropNotifies (uploadLoop blockResp fdata assocs u' missing).1 ∧
    (uploadLoop blockResp fdata assocs u missing).2 =
      (uploadLoop blockResp fdata assocs u' missing).2 := by
  induction missing with
  | nil => exact ⟨rfl, rfl⟩
  | cons h rest ih =>
      cases hdl : dictLookup assocs h with
      | none => simp [uploadLoop, hdl]
      | some ol =>
          obtain ⟨o, l⟩ := ol
          cases hpb : put_block blockResp ((fdata.drop o).take l) h with
          | some e => simp [uploadLoop, hdl, hpb]
          | none =>
              simp only [uploadLoop, hdl, hpb]
              refine ⟨?_, ih.2⟩
              cases u <;> cases u' <;>
                simp [dropNotifies, List.filter_cons, isNotifyEv] <;>
                  · have h9 := ih.1
                    simp only [dropNotifies] at h9
                    exact h9

theorem uploadLoop_no_hashNotify (blockResp : List Byte → Fp → Resp)
    (fdata : List Byte) (assocs : List (Fp × Nat × Nat)) (u : Bool)
    (missing : List Fp) :
    ((uploadLoop blockResp fdata assocs u missing).1.countP
      (fun e => isHashNotifyEv e)) = 0 := by
  induction missing with
  | nil => rfl
  | cons h rest ih =>
      cases hdl : dictLookup assocs h with
      | none => simp [uploadLoop, hdl]
      | some ol =>
          obtain ⟨o, l⟩ := ol
          cases hpb : put_block blockResp ((fdata.drop o).take l) h with
          | some e => simp [uploadLoop, hdl, hpb, List.countP_cons, isHashNotifyEv]
          | none =>
              simp only [uploadLoop, hdl, hpb]
              have hput : isHashNotifyEv
                  (Event.putBlockCall ((fdata.drop o).take l) h) = false := rfl
              have hnot : isHashNotifyEv Event.uploadNotify = false := rfl
              cases u
              · rw [if_neg (by simp), List.countP_cons, ih, hput]
                rfl
              · rw [if_pos rfl, List.countP_cons, List.countP_cons, ih, hput, hnot]
                rfl

theorem countP_hashEvents (cs : List Chunk) :
    ((cs.map fun _ => Event.hashNotify).countP (fun e => isHashNotifyEv e)) =
      cs.length := by
  induction cs with
  | nil => rfl
  | cons c t ih =>
      simp only [List.map_cons, List.countP_cons, ih]
      rfl

/-- C9: supplying or omitting either progress sink changes nothing but the
notifications: the traces agree once notifications are removed (same
fingerprints, same hash-map submissions, same block uploads in the same
order) and the outcome is identical; with a hash sink supplied, exactly one
hash notification is emitted per block. -/
theorem create_object_progress_frame (digest : Digest) (bh : String) (B : Nat)
    (fdata : List Byte) (size : Nat) (fs : Nat) (missing : List Fp)
    (blockResp : List Byte → Fp → Resp) (fin : Nat) (h1 u1 h2 u2 : Bool) :
    dropNotifies (create_object digest bh B fdata size h1 u1 fs missing
        blockResp fin).1 =
      dropNotifies (create_object digest bh B fdata size h2 u2 fs missing
        blockResp fin).1 ∧
    (create_object digest bh B fdata size h1 u1 fs missing blockResp fin).2 =
      (create_object digest bh B fdata size h2 u2 fs missing blockResp fin).2 ∧
    ((create_object digest bh B fdata size true u1 fs missing blockResp
        fin).1.countP (fun e => isHashNotifyEv e)) =
      (chunksOf fdata size B).length := by
  obtain ⟨hf1, hf2⟩ := uploadLoop_ucb_frame blockResp fdata
    ((chunksOf fdata size B).map
      (fun c => (pithos_hash digest bh c.data, c.offset, c.len))) missing u1 u2
  have hup1 := uploadLoop_no_hashNotify blockResp fdata
    ((chunksOf fdata size B).map
      (fun c => (pithos_hash digest bh c.data, c.offset, c.len))) u1 missing
  refine ⟨?_, ?_, ?_⟩
  · unfold create_object
    by_cases hs : sumLens (chunksOf fdata size B) ≠ size
    · rw [if_pos hs, if_pos hs]
      cases h1 <;> cases h2 <;>
        simp [dropNotifies_hashEvents, dropNotifies, isNotifyEv]
    · rw [if_neg hs, if_neg hs]
      by_cases h201 : fs = 201
      · rw [if_pos h201, if_pos h201]
        cases h1 <;> cases h2 <;>
          simp [dropNotifies_append, dropNotifies_hashEvents, dropNotifies, isNotifyEv]
      · rw [if_neg h201, if_neg h201]
        by_cases h409 : fs ≠ 409
        · rw [if_pos h409, if_pos h409]
          cases h1 <;> cases h2 <;>
            simp [dropNotifies_append, dropNotifies_hashEvents, dropNotifies, isNotifyEv]
        · rw [if_neg h409, if_neg h409]
          cases hr : (uploadLoop blockResp fdata
              ((chunksOf fdata size B).map
                (fun c => (pithos_hash digest bh c.data, c.offset, c.len)))
              u1 missing).2 with
          | some e =>
              have hr2 : (uploadLoop blockResp fdata
                  ((chunksOf fdata size B).map
                    (fun c => (pithos_hash digest bh c.data, c.offset, c.len)))
                  u2 missing).2 = some e := by rw [← hf2]; exact hr
              simp only [hr, hr2]
              cases h1 <;> cases h2 <;>
                · rw [dropNotifies_append, dropNotifies_append,
                    dropNotifies_append, dropNotifies_append, hf1]
                  try simp [dropNotifies_hashEvents, dropNotifies, isNotifyEv]
          | none =>
              have hr2 : (uploadLoop blockResp fdata
                  ((chunksOf fdata size B).map
                    (fun c => (pithos_hash digest bh c.data, c.offset, c.len)))
                  u2 missing).2 = none := by rw [← hf2]; exact hr
              simp only [hr, hr2]
              by_cases hfin : fin = 201 <;>
                [rw [if_pos hfin, if_pos hfin]; rw [if_neg hfin, if_neg hfin]] <;>
                  cases h1 <;> cases h2 <;>
                    · rw [dropNotifies_append, dropNotifies_append,
                        dropNotifies_append, dropNotifies_append,
                        dropNotifies_append, dropNotifies_append, hf1]
                      try simp [dropNotifies_hashEvents, dropNotifies, isNotifyEv]
  · unfold create_object
    by_cases hs : sumLens (chunksOf fdata size B) ≠ size
    · rw [if_pos hs, if_pos hs]
    · rw [if_neg hs, if_neg hs]
      by_cases h201 : fs = 201
      · rw [if_pos h201, if_pos h201]
      · rw [if_neg h201, if_neg h201]
        by_cases h409 : fs ≠ 409
        · rw [if_pos h409, if_pos h409]
        · rw [if_neg h409, if_neg h409]
          cases hr : (uploadLoop blockResp fdata
              ((chunksOf fdata size B).map
                (fun c => (pithos_hash digest bh c.data, c.offset, c.len)))
              u1 missing).2 with
          | some e =>
              have hr2 : (uploadLoop blockResp fdata
                  ((chunksOf fdata size B).map
                    (fun c => (pithos_hash digest bh c.data, c.offset, c.len)))
                  u2 missing).2 = some e := by rw [← hf2]; exact hr
              simp only [hr, hr2]
          | none =>
              have hr2 : (uploadLoop blockResp fdata
                  ((chunksOf fdata size B).map
                    (fun c => (pithos_hash digest bh c.data, c.offset, c.len)))
                  u2 missing).2 = none := by rw [← hf2]; exact hr
              simp only [hr, hr2]
              by_cases hfin : fin = 201 <;>
                [rw [if_pos hfin, if_pos hfin]; rw [if_neg hfin, if_neg hfin]]
  · unfold create_object
    by_cases hs : sumLens (chunksOf fdata size B) ≠ size
    · rw [if_pos hs]
      exact countP_hashEvents _
    · rw [if_neg hs]
      by_cases h201 : fs = 201
      · rw [if_pos h201]
        rw [show ((if (true : Bool) = true then
            (chunksOf fdata size B).map (fun _ => Event.hashNotify) else []) ++
            [Event.submitHashmap size ((chunksOf fdata size B).map
              (fun c => pithos_hash digest bh c.data))], (none : Option Err)).1 =
            ((chunksOf fdata size B).map (fun _ => Event.hashNotify) ++
            [Event.submitHashmap size ((chunksOf fdata size B).map
              (fun c => pithos_hash digest bh c.data))]) from rfl]
        rw [List.countP_append, countP_hashEvents]
        simp [List.countP_cons, isHashNotifyEv]
      · rw [if_neg h201]
        by_cases h409 : fs ≠ 409
        · rw [if_pos h409]
          rw [show ((if (true : Bool) = true then
              (chunksOf fdata size B).map (fun _ => Event.hashNotify) else []) ++
              [Event.submitHashmap size ((chunksOf fdata size B).map
                (fun c => pithos_hash digest bh c.data))],
              some (Err.transport fs)).1 =
              ((chunksOf fdata size B).map (fun _ => Event.hashNotify) ++
              [Event.submitHashmap size ((chunksOf fdata size B).map
                (fun c => pithos_hash digest bh c.data))]) from rfl]
          rw [List.countP_append, countP_hashEvents]
          simp [List.countP_cons, isHashNotifyEv]
        · rw [if_neg h409]
          cases hr : (uploadLoop blockResp fdata
              ((chunksOf fdata size B).map
                (fun c => (pithos_hash digest bh c.data, c.offset, c.len)))
              u1 missing).2 with
          | some e =>
              simp only [hr]
              rw [List.countP_append, List.countP_append, if_true, hup1,
                countP_hashEvents]
              simp [List.countP_cons, isHashNotifyEv]
          | none =>
              simp only [hr]
              by_cases hfin : fin = 201 <;>
                [rw [if_pos hfin]; rw [if_neg hfin]] <;>
                  · rw [List.countP_append, List.countP_append,
                      List.countP_append, if_true, hup1, countP_hashEvents]
                    simp [List.countP_cons, isHashNotifyEv]

/-- The last chunk of the sequence bearing a given fingerprint, if any:
what the Python dict built by `map[hash] = (offset, bytes)` remembers. -/
def lastChunkWith (digest : Digest) (bh : String) (cs : List Chunk) (fp : Fp) :
    Option Chunk :=
  cs.reverse.find? (fun c => pithos_hash digest bh c.data == fp)

theorem dictLookup_assocsOf (digest : Digest) (bh : String) (fdata : List Byte)
    (size B : Nat) (fp : Fp) :
    dictLookup (assocsOf digest bh fdata size B) fp =
      (lastChunkWith digest bh (chunksOf fdata size B) fp).map
        (fun c => (c.offset, c.len)) := by
  unfold dictLookup assocsOf lastChunkWith
  rw [← List.map_reverse, List.find?_map, Option.map_map]
  rfl

theorem chunksOf_offset_len_le (fdata : List Byte) (size B : Nat)
    (hB : 0 < B) (hL : size ≤ fdata.length) :
    ∀ c ∈ chunksOf fdata size B, c.offset + c.len ≤ size := by
  intro c hc
  rw [chunksOf_eq_map fdata size B hB hL] at hc
  obtain ⟨i, hi, rfl⟩ := List.mem_map.mp hc
  have hik : i < nblocksOf size B := List.mem_range.mp hi
  have h3 : (i + 1) * B ≤ nblocksOf size B * B :=
    Nat.mul_le_mul_right B (by omega)
  have h4 : (i + 1) * B = i * B + B := by ring
  obtain ⟨t, ht⟩ : ∃ t, i * B = t := ⟨_, rfl⟩
  have hbd := (nblocksOf_mul_bounds size B hB).2
  obtain ⟨u, hu⟩ : ∃ u, nblocksOf size B * B = u := ⟨_, rfl⟩
  rw [h4, ht, hu] at h3
  rw [hu] at hbd
  simp only [chunkAt, ht]
  omega

theorem lastChunkWith_mem (digest : Digest) (bh : String) (cs : List Chunk)
    (fp : Fp) (c : Chunk) (h : lastChunkWith digest bh cs fp = some c) :
    c ∈ cs := by
  unfold lastChunkWith at h
  exact List.mem_reverse.mp (List.mem_of_find?_eq_some h)

theorem lastChunkWith_fp (digest : Digest) (bh : String) (cs : List Chunk)
    (fp : Fp) (c : Chunk) (h : lastChunkWith digest bh cs fp = some c) :
    pithos_hash digest bh c.data = fp := by
  unfold lastChunkWith at h
  have := List.find?_some h
  simpa using this

/-- C3 counterexample: with source [1,0,0,0,1,0], size 6 and blocksize 4,
both chunks (offsets 0 and 4, lengths 4 and 2) bear the same fingerprint;
the `(offset, length)` pair the dict yields is `(4, 2)` — the LAST block
with that fingerprint, not `(0, 4)`, the first — and the transmitted body
is the last block's bytes `[1, 0]`, never the first block's `[1, 0, 0, 0]`. -/
theorem create_object_first_occurrence_cex :
    (chunksOf [1, 0, 0, 0, 1, 0] 6 4).get ⟨0, by decide⟩ =
      ⟨0, 4, [1, 0, 0, 0]⟩ ∧
    (chunksOf [1, 0, 0, 0, 1, 0] 6 4).get ⟨1, by decide⟩ = ⟨4, 2, [1, 0]⟩ ∧
    pithos_hash (fun _ b => toString b.length) "h" [1, 0, 0, 0] = "1" ∧
    pithos_hash (fun _ b => toString b.length) "h" [1, 0] = "1" ∧
    dictLookup
      (assocsOf (fun _ b => toString b.length) "h" [1, 0, 0, 0, 1, 0] 6 4) "1" =
      some (4, 2) ∧
    ((4 : Nat), (2 : Nat)) ≠ ((0 : Nat), (4 : Nat)) ∧
    Event.putBlockCall [1, 0] "1" ∈
      (create_object (fun _ b => toString b.length) "h" 4 [1, 0, 0, 0, 1, 0] 6
        false false 409 ["1"] (fun _ h => ⟨202, h⟩) 201).1 ∧
    Event.putBlockCall [1, 0, 0, 0] "1" ∉
      (create_object (fun _ b => toString b.length) "h" 4 [1, 0, 0, 0, 1, 0] 6
        false false 409 ["1"] (fun _ h => ⟨202, h⟩) 201).1 := by
  decide

/-- C3 amended: in the missing-block phase, the `(offset, length)` pair used
for a missing fingerprint is that of the LAST chunk bearing it (Python dict:
later `map[hash] = (offset, bytes)` assignments overwrite earlier ones);
exactly `length` bytes are then read from that offset and sent as the body
of the block POST. -/
theorem create_object_missing_uses_last (digest : Digest) (bh : String)
    (B : Nat) (fdata : List Byte) (size : Nat) (fp : Fp)
    (hB : 0 < B) (hL : size ≤ fdata.length) :
    dictLookup (assocsOf digest bh fdata size B) fp =
      (lastChunkWith digest bh (chunksOf fdata size B) fp).map
        (fun c => (c.offset, c.len)) ∧
    (∀ o l, dictLookup (assocsOf digest bh fdata size B) fp = some (o, l) →
      ((fdata.drop o).take l).length = l) ∧
    (∀ o l, ∀ hcb ucb : Bool, ∀ blockResp : List Byte → Fp → Resp, ∀ fin : Nat,
      dictLookup (assocsOf digest bh fdata size B) fp = some (o, l) →
      (∀ d, (blockResp d fp).status = 202 ∧ strip (blockResp d fp).text = fp) →
      Event.putBlockCall ((fdata.drop o).take l) fp ∈
        (create_object digest bh B fdata size hcb ucb 409 [fp] blockResp fin).1) := by
  have hsum : sumLens (chunksOf fdata size B) = size :=
    sumLens_readLoop fdata size B hL (nblocksOf size B) 0 (Nat.zero_le _)
      (by have := (nblocksOf_mul_bounds size B hB).1; omega)
  refine ⟨dictLookup_assocsOf digest bh fdata size B fp, ?_, ?_⟩
  · intro o l hd
    rw [dictLookup_assocsOf] at hd
    obtain ⟨c, hc1, hc2⟩ := Option.map_eq_some'.mp hd
    have hmem := lastChunkWith_mem digest bh _ fp c hc1
    have hbound := chunksOf_offset_len_le fdata size B hB hL c hmem
    have ho : c.offset = o := congrArg Prod.fst hc2
    have hl : c.len = l := congrArg Prod.snd hc2
    rw [len_take_drop]
    omega
  · intro o l hcb ucb blockResp fin hd hresp
    have hput : put_block blockResp ((fdata.drop o).take l) fp = none := by
      have h1 := (hresp ((fdata.drop o).take l)).1
      have h2 := (hresp ((fdata.drop o).take l)).2
      unfold put_block
      simp only [h1, h2]
      simp
    rw [assocsOf] at hd
    unfold create_object
    rw [if_neg (by rw [hsum]; exact fun hx => hx rfl)]
    rw [if_neg (by omega)]
    rw [if_neg (by simp)]
    simp only [uploadLoop, hd, hput]
    cases ucb <;> cases hcb <;> by_cases hf : fin = 201 <;>
      simp [hf, List.mem_append, uploadLoop]

/-- Witness for the amended C3 at source [1,0,0,0,1,0], size 6, blocksize 4,
fingerprint "1". -/
theorem create_object_missing_uses_last_witness :
    0 < 4 ∧ 6 ≤ ([1, 0, 0, 0, 1, 0] : List Byte).length ∧
    (dictLookup
        (assocsOf (fun _ b => toString b.length) "h" [1, 0, 0, 0, 1, 0] 6 4) "1" =
      (lastChunkWith (fun _ b => toString b.length) "h"
          (chunksOf [1, 0, 0, 0, 1, 0] 6 4) "1").map (fun c => (c.offset, c.len)) ∧
    (∀ o l, dictLookup
        (assocsOf (fun _ b => toString b.length) "h" [1, 0, 0, 0, 1, 0] 6 4) "1" =
        some (o, l) →
      ((([1, 0, 0, 0, 1, 0] : List Byte).drop o).take l).length = l) ∧
    (∀ o l, ∀ hcb ucb : Bool, ∀ blockResp : List Byte → Fp → Resp, ∀ fin : Nat,
      dictLookup
        (assocsOf (fun _ b => toString b.length) "h" [1, 0, 0, 0, 1, 0] 6 4) "1" =
        some (o, l) →
      (∀ d, (blockResp d "1").status = 202 ∧ strip (blockResp d "1").text = "1") →
      Event.putBlockCall ((([1, 0, 0, 0, 1, 0] : List Byte).drop o).take l) "1" ∈
        (create_object (fun _ b => toString b.length) "h" 4 [1, 0, 0, 0, 1, 0] 6
          hcb ucb 409 ["1"] blockResp fin).1)) :=
  ⟨by decide, by decide,
    create_object_missing_uses_last (fun _ b => toString b.length) "h" 4
      [1, 0, 0, 0, 1, 0] 6 "1" (by decide) (by decide)⟩

theorem take_add_split {α : Type _} :
    ∀ (m : Nat) (l : List α) (n : Nat),
      l.take (m + n) = l.take m ++ (l.drop m).take n := by
  intro m
  induction m with
  | zero => intro l n; simp
  | succ k ih =>
      intro l n
      cases l with
      | nil => simp
      | cons a t =>
          have hx : k + 1 + n = (k + n) + 1 := by omega
          rw [hx]
          simp only [List.take_succ_cons, List.drop_succ_cons, List.cons_append]
          rw [ih t n]

/-- The bytes of a chunk list, concatenated in order. -/
def joinDatas (cs : List Chunk) : List Byte :=
  cs.foldr (fun c acc => c.data ++ acc) []

theorem joinDatas_readLoop (fdata : List Byte) (size B : Nat)
    (hL : size ≤ fdata.length) :
    ∀ (k o : Nat), o ≤ size → size - o ≤ k * B →
    joinDatas (readLoop fdata size B k o) = (fdata.drop o).take (size - o) := by
  intro k
  induction k with
  | zero =>
      intro o ho hk
      have hz : size - o = 0 := by omega
      rw [hz]
      rfl
  | succ n ih =>
      intro o ho hk
      have hlen : ((fdata.drop o).take (min B (size - o))).length
          = min B (size - o) := by
        rw [len_take_drop]; omega
      rw [readLoop]
      show (fdata.drop o).take (min B (size - o)) ++
        joinDatas (readLoop fdata size B n
          (o + ((fdata.drop o).take (min B (size - o))).length)) =
        (fdata.drop o).take (size - o)
      rw [hlen]
      have hexp : (n + 1) * B = n * B + B := by ring
      rw [hexp] at hk
      obtain ⟨t, ht⟩ : ∃ t, n * B = t := ⟨_, rfl⟩
      rw [ht] at hk
      rw [ih (o + min B (size - o)) (by omega) (by rw [ht]; omega)]
      have hsplit := take_add_split (min B (size - o)) (fdata.drop o)
        (size - o - min B (size - o))
      have harith : min B (size - o) + (size - o - min B (size - o)) = size - o := by
        omega
      rw [harith] at hsplit
      rw [List.drop_drop] at hsplit
      have hdd : size - (o + min B (size - o)) = size - o - min B (size - o) := by
        omega
      rw [hdd]
      exact hsplit.symm

theorem readLoop_mem_shape (fdata : List Byte) (size B : Nat) :
    ∀ (k o : Nat), ∀ c ∈ readLoop fdata size B k o,
      c.data.length = c.len ∧ c.len ≤ B ∧
      c.data = (fdata.drop c.offset).take (min B (size - c.offset)) := by
  intro k
  induction k with
  | zero => intro o c hc; cases hc
  | succ n ih =>
      intro o c hc
      rw [readLoop] at hc
      rcases List.mem_cons.mp hc with hc1 | hc2
      · subst hc1
        refine ⟨rfl, ?_, rfl⟩
        show ((fdata.drop o).take (min B (size - o))).length ≤ B
        rw [len_take_drop]
        omega
      · exact ih _ c hc2

/-- `append_object(object, source_file)` from pithos.py lines 275-289: the
container block size is fetched, the source size comes from `fstat`, the
headers `Content-Range: bytes */*` and `Content-Type` are set once, then
ceil(filesize / blocksize) windows are read sequentially, each POSTed with
`Content-Length` set to the bytes of that window. Result: the list of
(body, Content-Length) pairs POSTed, in order. -/
def append_object (B : Nat) (fdata : List Byte) : List (List Byte × Nat) :=
  (readLoop fdata fdata.length B (nblocksOf fdata.length B) 0).map
    (fun c => (c.data, c.len))

/-- C10: `append_object` issues exactly ceil(filesize / B) data-bearing
POSTs; each carries at most B bytes with Content-Length equal to the bytes
read for that window, the windows concatenate to the source file in order,
and a zero-byte source issues zero POSTs. -/
theorem append_object_windows (B : Nat) (fdata : List Byte) (hB : 0 < B) :
    (append_object B fdata).length = (fdata.length + B - 1) / B ∧
    (∀ p ∈ append_object B fdata, p.1.length ≤ B ∧ p.2 = p.1.length) ∧
    (append_object B fdata).foldr (fun p acc => p.1 ++ acc) [] = fdata ∧
    (fdata.length = 0 → append_object B fdata = []) := by
  refine ⟨?_, ?_, ?_, ?_⟩
  · rw [append_object, List.length_map, readLoop_length,
      nblocksOf_eq_ceil _ B hB]
  · intro p hp
    obtain ⟨c, hc, rfl⟩ := List.mem_map.mp hp
    obtain ⟨hs1, hs2, _⟩ := readLoop_mem_shape fdata fdata.length B _ 0 c hc
    exact ⟨by rw [hs1]; exact hs2, hs1.symm⟩
  · rw [append_object, List.foldr_map]
    have hj := joinDatas_readLoop fdata fdata.length B (Nat.le_refl _)
      (nblocksOf fdata.length B) 0 (Nat.zero_le _)
      (by have := (nblocksOf_mul_bounds fdata.length B hB).1; omega)
    rw [joinDatas] at hj
    rw [hj]
    simp
  · intro h0
    rw [append_object, h0, nblocksOf_zero B hB]
    rfl

/-- Witness for C10 at blocksize 2 and the 5-byte source [1,2,3,4,5]. -/
theorem append_object_windows_witness :
    0 < 2 ∧
    ((append_object 2 [1, 2, 3, 4, 5]).length =
        (([1, 2, 3, 4, 5] : List Byte).length + 2 - 1) / 2 ∧
      (∀ p ∈ append_object 2 [1, 2, 3, 4, 5], p.1.length ≤ 2 ∧ p.2 = p.1.length) ∧
      (append_object 2 [1, 2, 3, 4, 5]).foldr (fun p acc => p.1 ++ acc) [] =
        [1, 2, 3, 4, 5] ∧
      (([1, 2, 3, 4, 5] : List Byte).length = 0 →
        append_object 2 [1, 2, 3, 4, 5] = [])) :=
  ⟨by decide, append_object_windows 2 [1, 2, 3, 4, 5] (by decide)⟩

/-- One POST of `overwrite_object`: the Content-Range header value current at
the time of the call (its start and end bytes), the Content-Length header,
and the body. -/
structure OwPost where
  crStart : Nat
  crEnd : Nat
  contentLength : Nat
  data : List Byte
  deriving DecidableEq, Repr

/-- The window-read loop of `overwrite_object` lines 315-317:
`block = source_file.read(min(blocksize, filesize - offset, datasize - offset));
offset += len(block)`, reads sequential. -/
def owReadLoop (fdata : List Byte) (ds B : Nat) : Nat → Nat → List Chunk
  | 0, _ => []
  | k + 1, o =>
    let block := (fdata.drop o).take (min B (min (fdata.length - o) (ds - o)))
    ⟨o, block.length, block⟩ :: owReadLoop fdata ds B k (o + block.length)

/-- `overwrite_object(object, start, end, source_file)` from pithos.py lines
300-319: `datasize = int(end) - int(start) + 1`, `nblocks = 1 + (datasize-1)
// blocksize`; the header `Content-Range: bytes start-end/*` is set ONCE
before the loop and `set_header` state persists until overwritten, so every
POST of the loop carries that same range value, while `Content-Length` is
set per window to the bytes of that window. Result: the POSTs in order. -/
def overwrite_object (B : Nat) (fdata : List Byte) (start endB : Nat) :
    List OwPost :=
  let ds := endB + 1 - start
  (owReadLoop fdata ds B (nblocksOf ds B) 0).map
    (fun c => ⟨start, endB, c.len, c.data⟩)

theorem owReadLoop_eq_readLoop (fdata : List Byte) (ds B : Nat) :
    ∀ (k o : Nat),
      owReadLoop fdata ds B k o = readLoop fdata (min ds fdata.length) B k o := by
  intro k
  induction k with
  | zero => intro o; rfl
  | succ n ih =>
      intro o
      rw [owReadLoop, readLoop]
      have harg : min B (min (fdata.length - o) (ds - o)) =
          min B (min ds fdata.length - o) := by omega
      rw [harg, ih]

/-- C2 counterexample: Overwrite(start=5, end=14) with blocksize 4 on a
20-byte source computes datasize 10 and issues 3 windows, but every window
is tagged with the Content-Range set once before the loop — start offset 5
for all three — so the second window carries start offset 5, not 9 (and the
third carries 5, not 13) as the claim requires. -/
theorem overwrite_object_content_range_cex :
    (overwrite_object 4 (List.range 20) 5 14).length = 3 ∧
    ((overwrite_object 4 (List.range 20) 5 14).get ⟨0, by decide⟩).crStart = 5 ∧
    ((overwrite_object 4 (List.range 20) 5 14).get ⟨1, by decide⟩).crStart = 5 ∧
    ((overwrite_object 4 (List.range 20) 5 14).get ⟨2, by decide⟩).crStart = 5 ∧
    ¬ ((overwrite_object 4 (List.range 20) 5 14).get ⟨1, by decide⟩).crStart = 9 ∧
    ¬ ((overwrite_object 4 (List.range 20) 5 14).get ⟨2, by decide⟩).crStart = 13 := by
  decide

/-- C2 amended: `overwrite_object(start, end, source)` computes
datasize = end - start + 1 and issues ceil(datasize / B) windows, but all
windows are tagged with the SAME Content-Range `bytes start-end/*` set once
before the first window (not per-window running offsets); each window
carries Content-Length equal to its bytes, at most B of them, and the
windows concatenate to the first datasize bytes of the source in order. -/
theorem overwrite_object_windows (B : Nat) (fdata : List Byte)
    (start endB : Nat) (hB : 0 < B) (hse : start ≤ endB)
    (hfs : endB + 1 - start ≤ fdata.length) :
    (overwrite_object B fdata start endB).length =
      ((endB + 1 - start) + B - 1) / B ∧
    (∀ p ∈ overwrite_object B fdata start endB,
      p.crStart = start ∧ p.crEnd = endB ∧
      p.contentLength = p.data.length ∧ p.data.length ≤ B) ∧
    (overwrite_object B fdata start endB).foldr (fun p acc => p.data ++ acc) [] =
      fdata.take (endB + 1 - start) := by
  have hmin : min (endB + 1 - start) fdata.length = endB + 1 - start :=
    Nat.min_eq_left hfs
  refine ⟨?_, ?_, ?_⟩
  · rw [overwrite_object, List.length_map, owReadLoop_eq_readLoop,
      readLoop_length, nblocksOf_eq_ceil _ B hB]
  · intro p hp
    rw [overwrite_object] at hp
    obtain ⟨c, hc, rfl⟩ := List.mem_map.mp hp
    rw [owReadLoop_eq_readLoop] at hc
    obtain ⟨hs1, hs2, _⟩ := readLoop_mem_shape fdata
      (min (endB + 1 - start) fdata.length) B _ 0 c hc
    exact ⟨rfl, rfl, hs1.symm, by rw [hs1]; exact hs2⟩
  · rw [overwrite_object, List.foldr_map, owReadLoop_eq_readLoop, hmin]
    dsimp only
    have hj := joinDatas_readLoop fdata (endB + 1 - start) B
      hfs (nblocksOf (endB + 1 - start) B) 0 (Nat.zero_le _)
      (by
        have := (nblocksOf_mul_bounds (endB + 1 - start) B hB).1
        omega)
    rw [joinDatas] at hj
    rw [hj]
    simp

/-- Witness for the amended C2 at start 5, end 14, blocksize 4 and the
20-byte source (List.range 20): datasize 10, three windows of 4, 4, 2
bytes, all tagged bytes 5-14. -/
theorem overwrite_object_windows_witness :
    0 < 4 ∧ 5 ≤ 14 ∧ 14 + 1 - 5 ≤ (List.range 20).length ∧
    ((overwrite_object 4 (List.range 20) 5 14).length = ((14 + 1 - 5) + 4 - 1) / 4 ∧
      (∀ p ∈ overwrite_object 4 (List.range 20) 5 14,
        p.crStart = 5 ∧ p.crEnd = 14 ∧
        p.contentLength = p.data.length ∧ p.data.length ≤ 4) ∧
      (overwrite_object 4 (List.range 20) 5 14).foldr
        (fun p acc => p.data ++ acc) [] = (List.range 20).take (14 + 1 - 5)) :=
  ⟨by decide, by decide, by decide,
    overwrite_object_windows 4 (List.range 20) 5 14 (by decide) (by decide)
      (by decide)⟩

end Pithos
